import Mathlib

/-!
Shallow embedding of the scalar-math utilities of
`src/appleseed/foundation/math/scalar.h` (appleseed rendering engine).

Modelling conventions:
* floating-point values are modelled as exact rationals (`ℚ`);
* C++ `int` is modelled as `ℤ`, with the truncated remainder `Int.tmod`
  standing for the C `%` operator;
* the fixed-width unsigned-integer instantiations of the bit-twiddling
  helpers are modelled on `ℕ`, with an explicit reduction modulo `2 ^ w`
  at the one place where overflow can occur (the final `+ 1` of
  `next_pow2`); all intermediate shift/or steps cannot overflow.
-/

namespace foundation

/-- The constant `Pi` from the source, a double-precision literal,
read as an exact rational. -/
def PiLit : ℚ := 31415926535897932 / 10 ^ 16

/-- `deg_to_rad(angle) { return angle * T(Pi / 180.0); }` -/
def deg_to_rad (angle : ℚ) : ℚ := angle * (PiLit / 180)

/-- `rad_to_deg(angle) { return angle * T(180.0 / Pi); }` -/
def rad_to_deg (angle : ℚ) : ℚ := angle * (180 / PiLit)

/-- Truncation toward zero of a rational, modelling the C++ conversion
`static_cast<Int>(x)` of a floating-point value (which truncates). -/
def ratTrunc (q : ℚ) : ℤ := if q < 0 then ⌈q⌉ else ⌊q⌋

/-- `truncate<Int>(x)`: the portable fallback path, a plain truncating
cast `static_cast<Int>(x)`. -/
def truncate (x : ℚ) : ℤ := ratTrunc x

/-- `round<Int>(x) { return truncate<Int>(x < T(0.0) ? x - T(0.5) : x + T(0.5)); }` -/
def round (x : ℚ) : ℤ := truncate (if x < 0 then x - 1/2 else x + 1/2)

/-- `std::fmod(a, n)`: the truncated floating remainder
`a - n * trunc(a / n)`, exact in this model. -/
def fmod (a n : ℚ) : ℚ := a - n * (ratTrunc (a / n) : ℚ)

/-- Generic `mod<T>` at an integer instantiation:
`const T m = a % n; return m < 0 ? n + m : m;` where C `%` is `Int.tmod`. -/
def mod (a n : ℤ) : ℤ :=
  let m := Int.tmod a n
  if m < 0 then n + m else m

/-- The `mod<double>` specialization:
`const double m = std::fmod(a, n); return m < 0.0 ? n + m : m;` -/
def modDouble (a n : ℚ) : ℚ :=
  let m := fmod a n
  if m < 0 then n + m else m

/-- `smoothstep(a, b, x)`:
`if (x <= a) return 0; if (x >= b) return 1;
 const T y = (x - a) / (b - a); return y * y * (3 - y - y);` -/
def smoothstep (a b x : ℚ) : ℚ :=
  if x ≤ a then 0
  else if x ≥ b then 1
  else
    let y := (x - a) / (b - a)
    y * y * (3 - y - y)

/-- `is_pow2(x) { return (x & (x - 1)) == 0; }` at an unsigned
instantiation. At `x = 0` the C++ code computes `0 & (0 - 1)` with
unsigned wraparound, which is `0`; truncated `Nat` subtraction computes
`0 &&& 0 = 0`, the same value. -/
def is_pow2 (x : ℕ) : Bool := (x &&& (x - 1)) == 0

/-- The `x |= x >> s` smearing chain of `next_pow2`: `smearAux n y`
applies the shifts `2 ^ (n - 1), ..., 4, 2, 1`, largest first, exactly
as the source does. -/
def smearAux : ℕ → ℕ → ℕ
  | 0, y => y
  | n + 1, y => smearAux n (y ||| (y >>> 2 ^ n))

/-- Generic `next_pow2<T>` instantiated at a 32-bit unsigned integer:
`--x;` then shifts `16, 8, 4, 2, 1`, then `return x + 1;`.
The decrement of a positive `x` matches `Nat` truncated subtraction,
and the final increment is reduced modulo `2 ^ 32` (wraparound). -/
def next_pow2_u32 (x : ℕ) : ℕ := (smearAux 5 (x - 1) + 1) % 2 ^ 32

/-- The `next_pow2<uint64>` specialization: shifts `32, 16, 8, 4, 2, 1`. -/
def next_pow2_u64 (x : ℕ) : ℕ := (smearAux 6 (x - 1) + 1) % 2 ^ 64

/-- `std::numeric_limits<T>::max()` / `::min()` of the floating-point
type instantiating `scalar_impl::feq`. -/
structure Limits where
  max : ℚ
  min : ℚ

/-- `std::numeric_limits<double>`: largest finite double
`(2^53 - 1) * 2^971` and smallest positive normal double `2^-1022`,
both exact rationals. -/
def dblLimits : Limits := ⟨(2 ^ 53 - 1) * 2 ^ 971, 1 / 2 ^ 1022⟩

/-- `default_eps<double>() { return 1.0e-14; }` -/
def default_eps_double : ℚ := 1 / 10 ^ 14

namespace scalar_impl

/-- `scalar_impl::feq(lhs, rhs, eps)`, the templatized implementation of
the approximate-equality test, with the numeric limits of the
instantiating type passed explicitly. -/
def feq (lim : Limits) (lhs rhs eps : ℚ) : Bool :=
  if lhs = 0 then decide (|rhs| < eps)
  else if rhs = 0 then decide (|lhs| < eps)
  else
    let abs_lhs := |lhs|
    let abs_rhs := |rhs|
    if abs_rhs < 1 ∧ abs_lhs > abs_rhs * lim.max then false
    else if abs_rhs > 1 ∧ abs_lhs < abs_rhs * lim.min then false
    else decide (lhs / rhs > 1 - eps ∧ lhs / rhs < 1 + eps)

end scalar_impl

/-- C9: `is_pow2(0) == true`: applied to zero, the `(x & (x - 1)) == 0`
test returns `true`. -/
theorem is_pow2_zero : is_pow2 0 = true := by decide

/-- C7: for `a < b`, `smoothstep(a, b, x)` returns `0` for `x ≤ a`,
returns `1` for `x ≥ b`, and otherwise returns `y * y * (3 - 2 * y)`
with `y = (x - a) / (b - a)`; in particular
`smoothstep(0, 1, 0.5) = 0.5`. -/
theorem smoothstep_spec (a b x : ℚ) (hab : a < b) :
    (x ≤ a → smoothstep a b x = 0) ∧
    (x ≥ b → smoothstep a b x = 1) ∧
    (a < x → x < b →
      smoothstep a b x =
        ((x - a) / (b - a)) * ((x - a) / (b - a)) * (3 - 2 * ((x - a) / (b - a)))) ∧
    smoothstep 0 1 (1/2) = 1/2 := by
  refine ⟨?_, ?_, ?_, by norm_num [smoothstep]⟩
  · intro h; simp [smoothstep, h]
  · intro h
    rcases eq_or_lt_of_le (le_of_lt hab) with h1 | h1
    · exact absurd h1 (ne_of_lt hab)
    unfold smoothstep
    rw [if_neg (by linarith), if_pos h]
  · intro h1 h2
    unfold smoothstep
    rw [if_neg (by linarith), if_neg (by simp; linarith)]
    ring

/-- Closed instance of `smoothstep_spec` at `a = 0`, `b = 1`, `x = 1/2`. -/
theorem smoothstep_spec_witness :
    (0 : ℚ) < 1 ∧ smoothstep 0 1 (1/2) = 1/2 :=
  ⟨by norm_num, (smoothstep_spec 0 1 (1/2) (by norm_num)).2.2.2⟩

/-- C1: `feq` returns `|rhs| < eps` when `lhs` is exactly zero, `|lhs| < eps`
when `rhs` is exactly zero, and otherwise (when neither the overflow nor
the underflow guard fires) returns `true` iff `lhs / rhs` lies strictly
within `(1 - eps, 1 + eps)`; in particular
`feq(0.0, 1e-10, 1e-6) = true` and `feq(1.0, 2.0, 1e-6) = false`
at double precision. -/
theorem feq_spec (lim : Limits) (lhs rhs eps : ℚ) :
    (lhs = 0 → scalar_impl.feq lim lhs rhs eps = decide (|rhs| < eps)) ∧
    (rhs = 0 → scalar_impl.feq lim lhs rhs eps = decide (|lhs| < eps)) ∧
    (lhs ≠ 0 → rhs ≠ 0 →
      ¬(|rhs| < 1 ∧ |lhs| > |rhs| * lim.max) →
      ¬(|rhs| > 1 ∧ |lhs| < |rhs| * lim.min) →
      (scalar_impl.feq lim lhs rhs eps = true ↔
        1 - eps < lhs / rhs ∧ lhs / rhs < 1 + eps)) ∧
    scalar_impl.feq dblLimits 0 (1 / 10 ^ 10) (1 / 10 ^ 6) = true ∧
    scalar_impl.feq dblLimits 1 2 (1 / 10 ^ 6) = false := by
  refine ⟨?_, ?_, ?_, ?ex1, ?ex2⟩
  case ex1 =>
    unfold scalar_impl.feq
    rw [if_pos rfl]
    norm_num [abs_lt]
  case ex2 =>
    unfold scalar_impl.feq
    rw [if_neg (by norm_num), if_neg (by norm_num)]
    dsimp only
    rw [if_neg (by rintro ⟨h1, -⟩; rw [abs_lt] at h1; linarith [h1.2]),
        if_neg (by
          rw [abs_of_pos (show (0:ℚ) < 1 by norm_num),
              abs_of_pos (show (0:ℚ) < 2 by norm_num)]
          norm_num [dblLimits])]
    norm_num
  · intro h
    simp [scalar_impl.feq, h]
  · intro h
    by_cases hl : lhs = 0
    · simp [scalar_impl.feq, h, hl]
    · simp [scalar_impl.feq, h, hl]
  · intro hl hr hg1 hg2
    unfold scalar_impl.feq
    rw [if_neg hl, if_neg hr, if_neg hg1, if_neg hg2]
    simp [and_comm]

/-- Closed instance of `feq_spec`: the `lhs = 0` clause at concrete input. -/
theorem feq_spec_witness :
    scalar_impl.feq dblLimits 0 (1/2) 1 = decide (|(1/2 : ℚ)| < 1) :=
  (feq_spec dblLimits 0 (1/2) 1).1 rfl

/-- C2: for nonzero operands, if the overflow guard
(`|rhs| < 1` and `|lhs| > |rhs| * max`) or the underflow guard
(`|rhs| > 1` and `|lhs| < |rhs| * min`) fires, `feq` returns `false`
instead of computing the ratio. -/
theorem feq_guard_false (lim : Limits) (lhs rhs eps : ℚ)
    (hl : lhs ≠ 0) (hr : rhs ≠ 0)
    (h : (|rhs| < 1 ∧ |lhs| > |rhs| * lim.max) ∨
         (|rhs| > 1 ∧ |lhs| < |rhs| * lim.min)) :
    scalar_impl.feq lim lhs rhs eps = false := by
  unfold scalar_impl.feq
  rw [if_neg hl, if_neg hr]
  rcases h with h | h
  · rw [if_pos h]
  · rw [if_neg (by rintro ⟨h1, -⟩; linarith [h.1]), if_pos h]

/-- Closed instance of `feq_guard_false`: overflow guard at concrete input. -/
theorem feq_guard_false_witness :
    scalar_impl.feq ⟨4, 1/4⟩ 3 (1/2) 1 = false :=
  feq_guard_false ⟨4, 1/4⟩ 3 (1/2) 1 (by norm_num) (by norm_num)
    (Or.inl ⟨by norm_num [abs_lt], by
      rw [abs_of_pos (show (0:ℚ) < 3 by norm_num),
          abs_of_pos (show (0:ℚ) < 1/2 by norm_num)]
      norm_num⟩)

/-- C10: for nonzero operands of opposite signs and `0 < eps ≤ 1`,
`feq` returns `false`: either a guard fires, or the ratio `lhs / rhs`
is negative and cannot lie in `(1 - eps, 1 + eps)`. -/
theorem feq_opposite_signs (lim : Limits) (lhs rhs eps : ℚ)
    (hsign : (lhs < 0 ∧ 0 < rhs) ∨ (0 < lhs ∧ rhs < 0))
    (heps0 : 0 < eps) (heps1 : eps ≤ 1) :
    scalar_impl.feq lim lhs rhs eps = false := by
  have hl : lhs ≠ 0 := by rcases hsign with ⟨h, -⟩ | ⟨h, -⟩ <;> [exact ne_of_lt h; exact ne_of_gt h]
  have hr : rhs ≠ 0 := by rcases hsign with ⟨-, h⟩ | ⟨-, h⟩ <;> [exact ne_of_gt h; exact ne_of_lt h]
  have hratio : lhs / rhs < 0 := by
    rcases hsign with ⟨h1, h2⟩ | ⟨h1, h2⟩
    · exact div_neg_of_neg_of_pos h1 h2
    · exact div_neg_of_pos_of_neg h1 h2
  unfold scalar_impl.feq
  rw [if_neg hl, if_neg hr]
  dsimp only
  split_ifs with h1 h2
  · rfl
  · rfl
  · rw [decide_eq_false_iff_not]
    rintro ⟨hA, -⟩
    linarith

/-- Closed instance of `feq_opposite_signs` at concrete input. -/
theorem feq_opposite_signs_witness :
    scalar_impl.feq dblLimits (-1) 1 (1/2) = false :=
  feq_opposite_signs dblLimits (-1) 1 (1/2)
    (Or.inl ⟨by norm_num, by norm_num⟩) (by norm_num) (by norm_num)

lemma PiLit_ne_zero : PiLit ≠ 0 := by norm_num [PiLit]

lemma d2r_r2d (x : ℚ) : deg_to_rad (rad_to_deg x) = x := by
  unfold deg_to_rad rad_to_deg
  have h := PiLit_ne_zero
  field_simp

lemma r2d_d2r (x : ℚ) : rad_to_deg (deg_to_rad x) = x := by
  unfold deg_to_rad rad_to_deg
  have h := PiLit_ne_zero
  field_simp

/-- `feq(x, x, eps)` is `true` whenever the limits bracket `1` and
`eps` is positive. -/
lemma feq_self (lim : Limits) (x eps : ℚ)
    (hmax : 1 ≤ lim.max) (hmin : lim.min ≤ 1) (heps : 0 < eps) :
    scalar_impl.feq lim x x eps = true := by
  by_cases hx : x = 0
  · unfold scalar_impl.feq
    rw [hx, if_pos rfl]
    simpa using heps
  · unfold scalar_impl.feq
    rw [if_neg hx, if_neg hx]
    dsimp only
    have habs := abs_nonneg x
    split_ifs with h1 h2
    · have := mul_le_mul_of_nonneg_left hmax habs
      exfalso; nlinarith [h1.2]
    · have := mul_le_mul_of_nonneg_left hmin habs
      exfalso; nlinarith [h2.2]
    · rw [div_self hx]
      simp only [decide_eq_true_eq]
      constructor <;> linarith

/-- C5: `deg_to_rad(rad_to_deg(x))` is approximately equal to `x` within
the double-precision default epsilon, and likewise for the opposite
composition (in this exact-rational model the round trips are exact, so
`feq` at the default epsilon accepts them). -/
theorem deg_rad_roundtrip (x : ℚ) :
    scalar_impl.feq dblLimits (deg_to_rad (rad_to_deg x)) x default_eps_double = true ∧
    scalar_impl.feq dblLimits (rad_to_deg (deg_to_rad x)) x default_eps_double = true := by
  constructor
  · rw [d2r_r2d]
    exact feq_self dblLimits x _ (by norm_num [dblLimits])
      (by norm_num [dblLimits]) (by norm_num [default_eps_double])
  · rw [r2d_d2r]
    exact feq_self dblLimits x _ (by norm_num [dblLimits])
      (by norm_num [dblLimits]) (by norm_num [default_eps_double])

lemma tmod_lower {a n : ℤ} (hn : 0 < n) : -n < Int.tmod a n := by
  rcases a with m | m
  · have hge : (0 : ℤ) ≤ Int.ofNat m := by rw [Int.ofNat_eq_coe]; omega
    have h := Int.tmod_nonneg n hge
    linarith
  · rcases n with k | k
    · have hk : 0 < k := by rw [Int.ofNat_eq_coe] at hn; omega
      have heq : Int.tmod (Int.negSucc m) (Int.ofNat k) = -(((m + 1) % k : ℕ) : ℤ) := rfl
      rw [heq]
      show -(k : ℤ) < -(((m + 1) % k : ℕ) : ℤ)
      have hlt : (m + 1) % k < k := Nat.mod_lt _ hk
      omega
    · exact absurd hn (by exact (Int.negSucc_lt_zero k).asymm)

lemma mod_nonneg_lt {a n : ℤ} (hn : 0 < n) : 0 ≤ mod a n ∧ mod a n < n := by
  unfold mod
  dsimp only
  have h1 := Int.tmod_lt_of_pos a hn
  have h2 := tmod_lower (a := a) hn
  split_ifs with h
  · constructor <;> linarith
  · push_neg at h
    constructor <;> linarith

lemma sub_ratTrunc_bounds (q : ℚ) :
    -1 < q - (ratTrunc q : ℚ) ∧ q - (ratTrunc q : ℚ) < 1 := by
  unfold ratTrunc
  split_ifs with h
  · have h1 := Int.le_ceil q
    have h2 := Int.ceil_lt_add_one q
    constructor <;> linarith
  · have h1 := Int.floor_le q
    have h2 := Int.lt_floor_add_one q
    constructor <;> linarith

lemma fmod_bounds {a n : ℚ} (hn : 0 < n) : -n < fmod a n ∧ fmod a n < n := by
  have h := sub_ratTrunc_bounds (a / n)
  have hne : n ≠ 0 := ne_of_gt hn
  have key : fmod a n = n * (a / n - (ratTrunc (a / n) : ℚ)) := by
    unfold fmod
    field_simp
  rw [key]
  have hlo := mul_lt_mul_of_pos_left h.1 hn
  have hhi := mul_lt_mul_of_pos_left h.2 hn
  constructor <;> nlinarith

lemma modDouble_range {a n : ℚ} (hn : 0 < n) :
    0 ≤ modDouble a n ∧ modDouble a n < n := by
  unfold modDouble
  dsimp only
  have h := fmod_bounds (a := a) hn
  split_ifs with hm
  · constructor <;> linarith [h.1]
  · push_neg at hm
    constructor <;> linarith [h.2]

/-- C4: for `n > 0`, `mod(a, n)` lies in `[0, n)` — the language
remainder (`%` for integers, `fmod` for floating types) plus `n` if that
remainder is negative; in particular `mod(5, 3) = 2` and
`mod(-1.0, 3.0) = 2.0`. -/
theorem mod_spec :
    (∀ a n : ℤ, 0 < n → 0 ≤ mod a n ∧ mod a n < n) ∧
    (∀ a n : ℚ, 0 < n → 0 ≤ modDouble a n ∧ modDouble a n < n) ∧
    mod 5 3 = 2 ∧ modDouble (-1) 3 = 2 := by
  refine ⟨fun a n hn => mod_nonneg_lt hn, fun a n hn => modDouble_range hn, by decide, ?_⟩
  have h : ratTrunc ((-1 : ℚ) / 3) = 0 := by
    unfold ratTrunc
    rw [if_pos (by norm_num)]
    norm_num
  unfold modDouble fmod
  rw [h]
  norm_num

/-- Closed instance of `mod_spec` at `a = -7`, `n = 3`. -/
theorem mod_spec_witness :
    (0 : ℤ) < 3 ∧ 0 ≤ mod (-7) 3 ∧ mod (-7) 3 < 3 :=
  ⟨by norm_num, mod_spec.1 (-7) 3 (by norm_num)⟩

/-- C8: `round<Int>(x)` rounds half away from zero: it adds `0.5` when
`x ≥ 0` and subtracts `0.5` when `x < 0`, then truncates toward zero
(for `x ≥ 0` this is `⌊x + 1/2⌋`, for `x < 0` it is `-⌊-x + 1/2⌋`);
in particular `round(2.5) = 3` and `round(-2.5) = -3`. -/
theorem round_spec :
    (∀ x : ℚ, 0 ≤ x → round x = ⌊x + 1/2⌋) ∧
    (∀ x : ℚ, x < 0 → round x = -⌊-x + 1/2⌋) ∧
    round (5/2) = 3 ∧ round (-5/2) = -3 := by
  refine ⟨?_, ?_, by norm_num [round, truncate, ratTrunc], ?_⟩
  · intro x hx
    unfold round truncate ratTrunc
    rw [if_neg (not_lt.mpr hx), if_neg (by linarith)]
  · intro x hx
    unfold round truncate ratTrunc
    rw [if_pos hx, if_pos (by linarith),
        show (-x + 1/2 : ℚ) = -(x - 1/2) by ring, Int.floor_neg, neg_neg]
  · unfold round truncate ratTrunc
    rw [if_pos (by norm_num), if_pos (by norm_num),
        show (-5/2 - 1/2 : ℚ) = ((-3 : ℤ) : ℚ) by norm_num, Int.ceil_intCast]

/-- Closed instance of `round_spec` at `x = 5/2`. -/
theorem round_spec_witness :
    (0 : ℚ) ≤ 5/2 ∧ round (5/2) = ⌊(5/2 : ℚ) + 1/2⌋ :=
  ⟨by norm_num, round_spec.1 (5/2) (by norm_num)⟩

/-- A bit of the smeared value is set iff some bit at offset `< 2 ^ n`
above it is set in the input: the shifts `2 ^ (n-1), ..., 2, 1` reach
every offset in `[0, 2 ^ n)` by subset sums. -/
lemma testBit_smearAux (n : ℕ) : ∀ y j : ℕ,
    (Nat.testBit (smearAux n y) j = true ↔
      ∃ d, d < 2 ^ n ∧ Nat.testBit y (j + d) = true) := by
  induction n with
  | zero =>
    intro y j
    constructor
    · intro h
      exact ⟨0, by norm_num, by simpa using h⟩
    · rintro ⟨d, hd, h⟩
      have hd0 : d = 0 := by omega
      subst hd0
      simpa using h
  | succ n ih =>
    intro y j
    rw [show smearAux (n + 1) y = smearAux n (y ||| (y >>> 2 ^ n)) from rfl, ih]
    constructor
    · rintro ⟨d, hd, h⟩
      rw [Nat.testBit_or, Bool.or_eq_true] at h
      rcases h with h | h
      · refine ⟨d, ?_, h⟩
        rw [pow_succ]
        omega
      · rw [Nat.testBit_shiftRight] at h
        refine ⟨d + 2 ^ n, by rw [pow_succ]; omega, ?_⟩
        rw [show j + (d + 2 ^ n) = 2 ^ n + (j + d) by omega]
        exact h
    · rintro ⟨d, hd, h⟩
      rw [pow_succ] at hd
      by_cases hc : d < 2 ^ n
      · refine ⟨d, hc, ?_⟩
        rw [Nat.testBit_or, Bool.or_eq_true]
        exact Or.inl h
      · refine ⟨d - 2 ^ n, by omega, ?_⟩
        rw [Nat.testBit_or, Bool.or_eq_true]
        right
        rw [Nat.testBit_shiftRight, show 2 ^ n + (j + (d - 2 ^ n)) = j + d by omega]
        exact h

/-- A value in `[2 ^ k, 2 ^ (k+1))` has bit `k` set. -/
lemma testBit_between {y k : ℕ} (h1 : 2 ^ k ≤ y) (h2 : y < 2 ^ (k + 1)) :
    Nat.testBit y k = true := by
  rw [Nat.testBit_to_div_mod]
  have hdiv : y / 2 ^ k = 1 :=
    Nat.div_eq_of_lt_le (by omega) (by rw [pow_succ] at h2; omega)
  rw [hdiv]
  rfl

/-- The top bit (at position `size y - 1`) of a nonzero value is set. -/
lemma top_bit_set {y : ℕ} (hy : y ≠ 0) :
    Nat.testBit y (Nat.size y - 1) = true := by
  have hpos : 0 < Nat.size y := Nat.size_pos.mpr (Nat.pos_of_ne_zero hy)
  have h1 : 2 ^ (Nat.size y - 1) ≤ y := Nat.lt_size.mp (by omega)
  have h2 : y < 2 ^ Nat.size y := Nat.lt_size_self y
  exact testBit_between h1 (by rw [show Nat.size y - 1 + 1 = Nat.size y by omega]; exact h2)

lemma testBit_true_lt_size {y i : ℕ} (h : Nat.testBit y i = true) : i < Nat.size y := by
  by_contra hc
  push_neg at hc
  have hlt : y < 2 ^ i :=
    lt_of_lt_of_le (Nat.lt_size_self y) (Nat.pow_le_pow_right (by norm_num) hc)
  rw [Nat.testBit_lt_two_pow hlt] at h
  exact Bool.false_ne_true h

/-- The full smear of `y < 2 ^ 2 ^ n` fills every bit below the top one:
the result is `2 ^ size y - 1`. -/
lemma smearAux_eq {n y : ℕ} (hy : y < 2 ^ 2 ^ n) :
    smearAux n y = 2 ^ Nat.size y - 1 := by
  apply Nat.eq_of_testBit_eq
  intro j
  rw [Nat.testBit_two_pow_sub_one]
  by_cases hj : j < Nat.size y
  · rw [decide_eq_true hj, testBit_smearAux]
    have hy0 : y ≠ 0 := by
      intro h0
      rw [h0, Nat.size_zero] at hj
      omega
    have htop := top_bit_set hy0
    have hs : Nat.size y ≤ 2 ^ n := Nat.size_le.mpr hy
    refine ⟨Nat.size y - 1 - j, by omega, ?_⟩
    rw [show j + (Nat.size y - 1 - j) = Nat.size y - 1 by omega]
    exact htop
  · rw [decide_eq_false hj, Bool.eq_false_iff]
    intro hmem
    rw [testBit_smearAux] at hmem
    rcases hmem with ⟨d, -, h⟩
    have := testBit_true_lt_size h
    omega

lemma next_pow2_u32_eq {x : ℕ} (h0 : 0 < x) (h1 : x ≤ 2 ^ 31) :
    next_pow2_u32 x = 2 ^ Nat.size (x - 1) := by
  unfold next_pow2_u32
  have hlit : (2 : ℕ) ^ 2 ^ 5 = 2 ^ 32 := by norm_num
  rw [smearAux_eq (show x - 1 < 2 ^ 2 ^ 5 by
    rw [hlit]
    have : (2 : ℕ) ^ 31 < 2 ^ 32 := by norm_num
    omega)]
  have hsz : Nat.size (x - 1) ≤ 31 := Nat.size_le.mpr (by omega)
  have hpow : 2 ^ Nat.size (x - 1) ≤ 2 ^ 31 := Nat.pow_le_pow_right (by norm_num) hsz
  have hpos : 0 < 2 ^ Nat.size (x - 1) := pow_pos (by norm_num) _
  rw [Nat.sub_add_cancel hpos]
  apply Nat.mod_eq_of_lt
  have : (2 : ℕ) ^ 31 < 2 ^ 32 := by norm_num
  omega

lemma next_pow2_u64_eq {x : ℕ} (h0 : 0 < x) (h1 : x ≤ 2 ^ 63) :
    next_pow2_u64 x = 2 ^ Nat.size (x - 1) := by
  unfold next_pow2_u64
  have hlit : (2 : ℕ) ^ 2 ^ 6 = 2 ^ 64 := by norm_num
  rw [smearAux_eq (show x - 1 < 2 ^ 2 ^ 6 by
    rw [hlit]
    have : (2 : ℕ) ^ 63 < 2 ^ 64 := by norm_num
    omega)]
  have hsz : Nat.size (x - 1) ≤ 63 := Nat.size_le.mpr (by omega)
  have hpow : 2 ^ Nat.size (x - 1) ≤ 2 ^ 63 := Nat.pow_le_pow_right (by norm_num) hsz
  have hpos : 0 < 2 ^ Nat.size (x - 1) := pow_pos (by norm_num) _
  rw [Nat.sub_add_cancel hpos]
  apply Nat.mod_eq_of_lt
  have : (2 : ℕ) ^ 63 < 2 ^ 64 := by norm_num
  omega

lemma is_pow2_two_pow (k : ℕ) : is_pow2 (2 ^ k) = true := by
  unfold is_pow2
  have hand : 2 ^ k &&& (2 ^ k - 1) = 0 := by
    apply Nat.eq_of_testBit_eq
    intro j
    rw [Nat.testBit_and, Nat.testBit_two_pow, Nat.testBit_two_pow_sub_one, Nat.zero_testBit]
    by_cases h : j < k
    · rw [decide_eq_false (show ¬k = j by omega)]
      rfl
    · rw [decide_eq_false h, Bool.and_false]
  rw [hand]
  rfl

/-- A positive value passes the `(x & (x - 1)) == 0` test iff it is the
power of two given by its top bit. -/
lemma is_pow2_iff {x : ℕ} (hx : 0 < x) :
    is_pow2 x = true ↔ x = 2 ^ (Nat.size x - 1) := by
  constructor
  · intro h
    by_contra hne
    have hpos : 0 < Nat.size x := Nat.size_pos.mpr hx
    have htop : 2 ^ (Nat.size x - 1) ≤ x := Nat.lt_size.mp (by omega)
    have hup : x < 2 ^ Nat.size x := Nat.lt_size_self x
    have hgt : 2 ^ (Nat.size x - 1) < x := htop.lt_of_ne fun he => hne he.symm
    have hs1 : Nat.size x - 1 + 1 = Nat.size x := by omega
    have hb1 : Nat.testBit (x - 1) (Nat.size x - 1) = true :=
      testBit_between (by omega) (by rw [hs1]; omega)
    have hb2 : Nat.testBit x (Nat.size x - 1) = true :=
      testBit_between htop (by rw [hs1]; exact hup)
    have hbit : Nat.testBit (x &&& (x - 1)) (Nat.size x - 1) = true := by
      rw [Nat.testBit_and, hb1, hb2]
      rfl
    have hz : x &&& (x - 1) = 0 := by simpa [is_pow2] using h
    rw [hz, Nat.zero_testBit] at hbit
    exact Bool.false_ne_true hbit
  · intro h
    rw [h]
    exact is_pow2_two_pow _

lemma size_two_pow_sub_one (k : ℕ) : Nat.size (2 ^ k - 1) = k := by
  rcases k with _ | k
  · simp [Nat.size_zero]
  · have hp : 0 < 2 ^ k := pow_pos (by norm_num) k
    have hq : 0 < 2 ^ (k + 1) := pow_pos (by norm_num) (k + 1)
    have h1 : Nat.size (2 ^ (k + 1) - 1) ≤ k + 1 := Nat.size_le.mpr (by omega)
    have h2 : k < Nat.size (2 ^ (k + 1) - 1) := Nat.lt_size.mpr (by rw [pow_succ]; omega)
    omega

/-- `2 ^ size (x - 1)` — the mathematical value of an unwrapped
`next_pow2` — is at least `x`, below `2 x`, and equal to `x` exactly on
the values accepted by `is_pow2`. -/
lemma next_pow2_props {x : ℕ} (h0 : 0 < x) :
    x ≤ 2 ^ Nat.size (x - 1) ∧
    2 ^ Nat.size (x - 1) < 2 * x ∧
    (is_pow2 x = true → 2 ^ Nat.size (x - 1) = x) := by
  refine ⟨?_, ?_, ?_⟩
  · have := Nat.lt_size_self (x - 1)
    omega
  · rcases Nat.lt_or_ge x 2 with h | h
    · have hx1 : x = 1 := by omega
      rw [hx1]
      norm_num [Nat.size_zero]
    · have hy0 : x - 1 ≠ 0 := by omega
      have hpos : 0 < Nat.size (x - 1) := Nat.size_pos.mpr (Nat.pos_of_ne_zero hy0)
      have htop : 2 ^ (Nat.size (x - 1) - 1) ≤ x - 1 := Nat.lt_size.mp (by omega)
      have hsplit : Nat.size (x - 1) - 1 + 1 = Nat.size (x - 1) := by omega
      have hdbl : 2 ^ Nat.size (x - 1) ≤ 2 * (x - 1) := by
        rw [← hsplit, pow_succ]
        omega
      omega
  · intro ht
    have hx := (is_pow2_iff h0).mp ht
    rw [show x - 1 = 2 ^ (Nat.size x - 1) - 1 by omega, size_two_pow_sub_one]
    exact hx.symm

/-- C3 (amended): for the 32-bit unsigned instantiation with
`0 < x ≤ 2^31` (resp. the `uint64` specialization with `0 < x ≤ 2^63`),
`next_pow2(x)` is a power of two, is `≥ x`, is `< 2 x` when `x` is not
a power of two, and equals `x` when `x` is a power of two; beyond those
bounds the final increment wraps around. -/
theorem next_pow2_spec (x : ℕ) :
    (0 < x → x ≤ 2 ^ 31 →
      is_pow2 (next_pow2_u32 x) = true ∧
      x ≤ next_pow2_u32 x ∧
      (is_pow2 x = false → next_pow2_u32 x < 2 * x) ∧
      (is_pow2 x = true → next_pow2_u32 x = x)) ∧
    (0 < x → x ≤ 2 ^ 63 →
      is_pow2 (next_pow2_u64 x) = true ∧
      x ≤ next_pow2_u64 x ∧
      (is_pow2 x = false → next_pow2_u64 x < 2 * x) ∧
      (is_pow2 x = true → next_pow2_u64 x = x)) := by
  constructor
  · intro h0 h1
    rw [next_pow2_u32_eq h0 h1]
    obtain ⟨p1, p2, p3⟩ := next_pow2_props h0
    exact ⟨is_pow2_two_pow _, p1, fun _ => p2, p3⟩
  · intro h0 h1
    rw [next_pow2_u64_eq h0 h1]
    obtain ⟨p1, p2, p3⟩ := next_pow2_props h0
    exact ⟨is_pow2_two_pow _, p1, fun _ => p2, p3⟩

/-- Closed instance of `next_pow2_spec` at `x = 5`. -/
theorem next_pow2_spec_witness :
    (0 < 5 ∧ 5 ≤ 2 ^ 31) ∧ is_pow2 (next_pow2_u32 5) = true ∧ 5 ≤ next_pow2_u32 5 :=
  ⟨⟨by norm_num, by norm_num⟩,
   ((next_pow2_spec 5).1 (by norm_num) (by norm_num)).1,
   ((next_pow2_spec 5).1 (by norm_num) (by norm_num)).2.1⟩

/-- C3 counterexample: at the 32-bit unsigned instantiation the claim as
stated fails for `x = 2^31 + 1`: the computed value wraps to `0`, so
`next_pow2(x) ≥ x` does not hold. -/
theorem next_pow2_u32_overflow :
    next_pow2_u32 (2 ^ 31 + 1) = 0 ∧ ¬(2 ^ 31 + 1 ≤ next_pow2_u32 (2 ^ 31 + 1)) := by
  constructor
  · decide
  · decide

end foundation
